import Mathlib

/-!
Verification of the CoreDNS backend storage layer (package `coredns`):
the in-memory backend (`backend_memory.go`), the SQLite backend
(`backend_sqlite.go`) and the backend selector (`backend.go`).

Modelling conventions:
* A Go `map[string]Service` (and likewise the SQLite `services` table,
  whose `key` column is the primary key) is embedded as an association
  list `Store := List (String × Service)`; the list order stands for the
  (unspecified) iteration/row order.  Key uniqueness, which Go maps and
  the SQL primary key guarantee, appears as an explicit `keysNodup`
  hypothesis where a theorem needs it.
* `context.Context` cancellation is embedded as a `canceled : Bool`
  argument.  Operations that mutate state return the post-state together
  with an `Option BackendError`, so that "the store is unchanged on a
  canceled call" is expressible.
* The SQL statements of the SQLite backend are executed by an external
  engine.  Their effect is modelled from the spec's description of them:
  `key LIKE ? || '%'` is a string-prefix filter and
  `key = ? OR key LIKE ? || '/%'` matches the exact key or any key with
  `key ++ "/"` as a string prefix.  `database/sql` honouring an
  already-canceled context at call entry is likewise modelled from the
  spec.  JSON marshalling of a `Service` round-trips, so a row's decoded
  value is the saved `Service` itself.
-/

namespace CoreDNS

/-- Service record.  Modelled from the spec §3: the `Service` struct
itself lives in the etcd provider file, which is not under `src/`; the
spec lists its fields as Host (string), Port (integer), Priority
(integer, semantic default 10), Weight (integer), Text (string), Mail
(boolean), TTL (unsigned 32-bit), TargetStrip (integer), Group (string)
and Key (string, the storage key). -/
structure Service where
  Host : String
  Port : Int
  Priority : Int
  Weight : Int
  Text : String
  Mail : Bool
  TTL : Nat
  TargetStrip : Int
  Group : String
  Key : String
  deriving DecidableEq, Repr

/-- Modelled from the spec: the package-level `priority` constant
(defined in the etcd provider file, absent from `src/`); the spec fixes
the substituted default Priority at 10. -/
def priority : Int := 10

/-- Errors the modelled operations can surface: context cancellation
(`ctx.Err()`) and the `ErrUnknownBackend` sentinel of `backend.go`. -/
inductive BackendError where
  | canceled
  | unknownBackend
  deriving DecidableEq, Repr

/-- The state of a backend store: an association list standing for the
`map[string]Service` of `MemoryBackend` (resp. the rows of the SQLite
`services` table, key column paired with the decoded value). -/
abbrev Store := List (String × Service)

/-- `strings.HasPrefix s pre` of Go: `pre` is a literal string prefix
of `s`. -/
def hasPre (s pre : String) : Bool :=
  pre.data.isPrefixOf s.data

/-- The `dedupKey` composite identity built inside `GetServices` of both
backends: a `Service` literal populated from (Host, Port, Priority,
Weight, Text) of the scanned value plus the row/map key; the remaining
fields are Go zero values. -/
def dedupIdentity (svc : Service) (key : String) : Service :=
  { Host := svc.Host, Port := svc.Port, Priority := svc.Priority,
    Weight := svc.Weight, Text := svc.Text, Key := key,
    Mail := false, TTL := 0, TargetStrip := 0, Group := "" }

/-- The per-entry read-back transformation of `GetServices`: copy the
stored value, set its `Key` from the map/row key, and substitute the
default `priority` when the stored Priority is 0. -/
def render (key : String) (svc : Service) : Service :=
  let svcCopy := { svc with Key := key }
  if svcCopy.Priority = 0 then { svcCopy with Priority := priority } else svcCopy

/-- The scan loop shared verbatim by `MemoryBackend.GetServices` and
`SQLiteBackend.GetServices`: walk the entries, keep those whose key has
`pfx` as a string prefix (for SQLite this filter is the `LIKE` clause of
the query), skip an entry whose `dedupIdentity` was already seen, and
emit the `render`ed copy of each kept entry. -/
def scanRows (pfx : String) : Store → List Service → List Service
  | [], _ => []
  | (key, svc) :: rest, seen =>
    if hasPre key pfx then
      let d := dedupIdentity svc key
      if d ∈ seen then
        scanRows pfx rest seen
      else
        render key svc :: scanRows pfx rest (d :: seen)
    else
      scanRows pfx rest seen

/-- Go map assignment `m[k] = v` (and the SQLite upsert
`INSERT ... ON CONFLICT(key) DO UPDATE`): replace the entry with key `k`
if present, otherwise add a new entry. -/
def mapInsert (k : String) (v : Service) : Store → Store
  | [] => [(k, v)]
  | (k', v') :: rest => if k' = k then (k, v) :: rest else (k', v') :: mapInsert k v rest

/-- Go map lookup `m[k]`: value of the entry with key `k`, if any. -/
def storeLookup (st : Store) (k : String) : Option Service :=
  match st.find? (fun e => e.1 == k) with
  | some e => some e.2
  | none => none

/-- The keys of a store are pairwise distinct — the invariant a Go map
(and the SQL primary key) maintains. -/
def keysNodup (st : Store) : Prop :=
  (st.map Prod.fst).Nodup

instance (st : Store) : Decidable (keysNodup st) := by
  unfold keysNodup; infer_instance

/-- `MemoryBackend.GetServices`: error on an already-canceled context,
otherwise scan the whole map filtering by string prefix, deduplicating
and defaulting Priority. -/
def MemoryBackend.GetServices (canceled : Bool) (st : Store) (pfx : String) :
    Except BackendError (List Service) :=
  if canceled then .error .canceled
  else .ok (scanRows pfx st [])

/-- `MemoryBackend.SaveService`: error (state untouched) on an
already-canceled context, otherwise store a copy of the record with its
`Key` field cleared under key `service.Key`. -/
def MemoryBackend.SaveService (canceled : Bool) (st : Store) (service : Service) :
    Store × Option BackendError :=
  if canceled then (st, some .canceled)
  else (mapInsert service.Key { service with Key := "" } st, none)

/-- `MemoryBackend.DeleteService`: error (state untouched) on an
already-canceled context, otherwise remove every entry whose key equals
`key` or has `key ++ "/"` as a string prefix. -/
def MemoryBackend.DeleteService (canceled : Bool) (st : Store) (key : String) :
    Store × Option BackendError :=
  if canceled then (st, some .canceled)
  else (st.filter (fun e => !(e.1 == key || hasPre e.1 (key ++ "/"))), none)

/-- `SQLiteBackend.GetServices`: the `LIKE ? || '%'` query filters rows
by string prefix; the row loop is the same dedup/default logic as the
memory backend (`scanRows`). A pre-canceled context makes
`QueryContext` return the cancellation error. -/
def SQLiteBackend.GetServices (canceled : Bool) (rows : Store) (pfx : String) :
    Except BackendError (List Service) :=
  if canceled then .error .canceled
  else .ok (scanRows pfx rows [])

/-- `SQLiteBackend.SaveService`: upsert of the full marshalled record
(its `Key` field included) under key `service.Key`. A pre-canceled
context makes `ExecContext` return the cancellation error. -/
def SQLiteBackend.SaveService (canceled : Bool) (rows : Store) (service : Service) :
    Store × Option BackendError :=
  if canceled then (rows, some .canceled)
  else (mapInsert service.Key service rows, none)

/-- `SQLiteBackend.DeleteService`:
`DELETE ... WHERE key = ? OR key LIKE ? || '/%'` — remove every row
whose key equals `key` or has `key ++ "/"` as a string prefix. A
pre-canceled context makes `ExecContext` return the cancellation
error. -/
def SQLiteBackend.DeleteService (canceled : Bool) (rows : Store) (key : String) :
    Store × Option BackendError :=
  if canceled then (rows, some .canceled)
  else (rows.filter (fun e => !(e.1 == key || hasPre e.1 (key ++ "/"))), none)

/-- `strings.ToLower` of Go, for ASCII input: lower-case every
character. -/
def toLowerGo (s : String) : String :=
  String.mk (s.data.map Char.toLower)

/-- `GetBackendType` of `backend.go`: lower-case the `COREDNS_BACKEND`
value, map the recognized aliases to the canonical type names, default
to `"etcd"` on the empty string, and otherwise return the (lowercased)
string itself. -/
def GetBackendType (env : String) : String :=
  let backendStr := toLowerGo env
  if backendStr == "sqlite" || backendStr == "sqlite3" then "sqlite"
  else if backendStr == "memory" || backendStr == "mem" || backendStr == "inmemory"
      || backendStr == "in-memory" then "memory"
  else if backendStr == "etcd" || backendStr == "" then "etcd"
  else backendStr

/-- The concrete backend a successful `NewBackend` call constructs.
The etcd client and the SQLite engine are external; their
resource-failure paths (connection, filesystem, schema) are outside the
model, so construction of a recognized type is modelled as succeeding
with the chosen instance. -/
inductive BackendInstance where
  | etcd
  | sqlite (path : String)
  | memory
  deriving DecidableEq, Repr

/-- `NewBackend` of `backend.go`, with the `BackendConfig` flattened to
its two fields (`Type`, `SQLitePath`): dispatch on the exact type
string; for `"sqlite"` an empty path falls back to the fixed default
location; any other type yields `(nil, ErrUnknownBackend)`. -/
def NewBackend (btype : String) (sqlitePath : String) :
    Option BackendInstance × Option BackendError :=
  if btype == "etcd" then (some .etcd, none)
  else if btype == "sqlite" then
    (some (.sqlite (if sqlitePath == "" then "/var/lib/external-dns/coredns.db"
                    else sqlitePath)), none)
  else if btype == "memory" then (some .memory, none)
  else (none, some .unknownBackend)

/-- Spec-side definition for the refinement claim: `GetServices` with
the dedup pass removed — filter the entries by string prefix and render
each one. -/
def getServicesNoDedup (pfx : String) (st : Store) : List Service :=
  (st.filter (fun e => hasPre e.1 pfx)).map (fun e => render e.1 e.2)

theorem hasPre_iff_exists (s pre : String) :
    hasPre s pre = true ↔ ∃ t : String, s = pre ++ t := by
  unfold hasPre
  rw [List.isPrefixOf_iff_prefix]
  constructor
  · rintro ⟨t, ht⟩
    refine ⟨String.mk t, String.ext ?_⟩
    rw [String.data_append]
    exact ht.symm
  · rintro ⟨t, rfl⟩
    rw [String.data_append]
    exact List.prefix_append _ _

theorem dedupIdentity_Key (svc : Service) (key : String) :
    (dedupIdentity svc key).Key = key := rfl

theorem render_Key (key : String) (svc : Service) :
    (render key svc).Key = key := by
  simp only [render]
  split <;> rfl

theorem render_Priority (key : String) (svc : Service) :
    (render key svc).Priority = if svc.Priority = 0 then priority else svc.Priority := by
  simp only [render]
  split <;> simp_all

theorem scanRows_eq_of_nodup (pfx : String) (entries : Store) :
    ∀ seen : List Service,
      (∀ d ∈ seen, d.Key ∉ entries.map Prod.fst) →
      (entries.map Prod.fst).Nodup →
      scanRows pfx entries seen = getServicesNoDedup pfx entries := by
  induction entries with
  | nil => intro seen _ _; simp [scanRows, getServicesNoDedup]
  | cons e rest ih =>
    intro seen hseen hnd
    obtain ⟨key, svc⟩ := e
    simp only [List.map_cons, List.nodup_cons] at hnd
    cases hp : hasPre key pfx with
    | false =>
      simp only [scanRows, hp, Bool.false_eq_true, if_false]
      rw [ih seen ?_ hnd.2]
      · simp [getServicesNoDedup, List.filter_cons, hp]
      · intro d hd
        have := hseen d hd
        simp only [List.map_cons, List.mem_cons, not_or] at this
        exact this.2
    | true =>
      have hdnew : dedupIdentity svc key ∉ seen := by
        intro hmem
        have := hseen _ hmem
        simp only [dedupIdentity, List.map_cons, List.mem_cons, not_or] at this
        exact this.1 trivial
      simp only [scanRows, hp, if_true, if_neg hdnew]
      rw [ih (dedupIdentity svc key :: seen) ?_ hnd.2]
      · simp [getServicesNoDedup, List.filter_cons, hp]
      · intro d hd
        rcases List.mem_cons.mp hd with h | h
        · subst h
          simpa [dedupIdentity] using hnd.1
        · have := hseen d h
          simp only [List.map_cons, List.mem_cons, not_or] at this
          exact this.2

theorem mem_scanRows_of_mem {st : Store} {K : String} {svc : Service} (pfx : String)
    (hnd : keysNodup st) (hmem : (K, svc) ∈ st) (hp : hasPre K pfx = true) :
    render K svc ∈ scanRows pfx st [] := by
  rw [scanRows_eq_of_nodup pfx st [] (by simp) hnd]
  simp only [getServicesNoDedup, List.mem_map]
  exact ⟨(K, svc), List.mem_filter.mpr ⟨hmem, hp⟩, rfl⟩

theorem scanRows_Key_hasPre (pfx : String) (entries : Store) :
    ∀ seen : List Service, ∀ r ∈ scanRows pfx entries seen, hasPre r.Key pfx = true := by
  induction entries with
  | nil => intro seen r hr; simp [scanRows] at hr
  | cons e rest ih =>
    intro seen r hr
    obtain ⟨key, svc⟩ := e
    cases hp : hasPre key pfx with
    | false =>
      simp only [scanRows, hp, Bool.false_eq_true, if_false] at hr
      exact ih seen r hr
    | true =>
      simp only [scanRows, hp, if_true] at hr
      by_cases hd : dedupIdentity svc key ∈ seen
      · rw [if_pos hd] at hr
        exact ih seen r hr
      · rw [if_neg hd] at hr
        rcases List.mem_cons.mp hr with h | h
        · subst h
          rw [render_Key]
          exact hp
        · exact ih _ r h

theorem not_mem_scanRows {K : String} (pfx : String) (entries : Store)
    (seen : List Service) (svc : Service) (hp : hasPre K pfx = false) :
    render K svc ∉ scanRows pfx entries seen := by
  intro hmem
  have := scanRows_Key_hasPre pfx entries seen _ hmem
  rw [render_Key] at this
  rw [hp] at this
  exact Bool.false_ne_true this

theorem mapInsert_mem_self (k : String) (v : Service) (st : Store) :
    (k, v) ∈ mapInsert k v st := by
  induction st with
  | nil => simp [mapInsert]
  | cons e rest ih =>
    by_cases h : e.1 = k
    · simp [mapInsert, h]
    · obtain ⟨k', v'⟩ := e
      simp only at h
      simp [mapInsert, h, ih]

theorem length_mapInsert_of_mem {k : String} (v : Service) {st : Store}
    (h : k ∈ st.map Prod.fst) : (mapInsert k v st).length = st.length := by
  induction st with
  | nil => simp at h
  | cons e rest ih =>
    obtain ⟨k', v'⟩ := e
    by_cases hk : k' = k
    · simp [mapInsert, hk]
    · simp only [List.map_cons, List.mem_cons] at h
      rcases h with h | h
      · exact absurd h.symm hk
      · simp [mapInsert, hk, ih h]

theorem mapInsert_idem (k : String) (v : Service) (st : Store) :
    mapInsert k v (mapInsert k v st) = mapInsert k v st := by
  induction st with
  | nil => simp [mapInsert]
  | cons e rest ih =>
    obtain ⟨k', v'⟩ := e
    by_cases hk : k' = k
    · simp [mapInsert, hk]
    · simp [mapInsert, hk, ih]

theorem storeLookup_mapInsert (k : String) (v : Service) (st : Store) :
    storeLookup (mapInsert k v st) k = some v := by
  induction st with
  | nil => simp [mapInsert, storeLookup, List.find?]
  | cons e rest ih =>
    obtain ⟨k', v'⟩ := e
    by_cases hk : k' = k
    · simp [mapInsert, hk, storeLookup, List.find?]
    · simp only [mapInsert, hk, if_false]
      simp only [storeLookup, List.find?] at ih ⊢
      rw [show (k' == k) = false from beq_eq_false_iff_ne.mpr hk]
      exact ih

theorem mem_keys_mapInsert {a k : String} (v : Service) (st : Store) :
    a ∈ (mapInsert k v st).map Prod.fst ↔ a = k ∨ a ∈ st.map Prod.fst := by
  induction st with
  | nil => simp [mapInsert]
  | cons e rest ih =>
    obtain ⟨k', v'⟩ := e
    by_cases hk : k' = k
    · subst hk
      simp [mapInsert]
    · simp only [mapInsert, hk, if_false, List.map_cons, List.mem_cons, ih]
      tauto

theorem keysNodup_mapInsert (k : String) (v : Service) {st : Store}
    (hnd : keysNodup st) : keysNodup (mapInsert k v st) := by
  induction st with
  | nil => simp [mapInsert, keysNodup]
  | cons e rest ih =>
    obtain ⟨k', v'⟩ := e
    simp only [keysNodup, List.map_cons, List.nodup_cons] at hnd
    by_cases hk : k' = k
    · subst hk
      simpa [mapInsert, keysNodup] using hnd
    · simp only [mapInsert, hk, if_false, keysNodup, List.map_cons, List.nodup_cons]
      refine ⟨?_, ih hnd.2⟩
      rw [mem_keys_mapInsert]
      push_neg
      exact ⟨hk, hnd.1⟩

/-- The entry-selection skeleton of the `GetServices` scan: which
entries survive the string-prefix filter and the first-per-`dedupIdentity`
skip, before rendering.  `scanRows` is exactly the `render` image of this
selection. -/
def firstPerIdentity (pfx : String) : Store → List Service → Store
  | [], _ => []
  | (key, svc) :: rest, seen =>
    if hasPre key pfx then
      let d := dedupIdentity svc key
      if d ∈ seen then firstPerIdentity pfx rest seen
      else (key, svc) :: firstPerIdentity pfx rest (d :: seen)
    else firstPerIdentity pfx rest seen

theorem scanRows_eq_map_firstPerIdentity (pfx : String) (entries : Store) :
    ∀ seen : List Service,
      scanRows pfx entries seen =
        (firstPerIdentity pfx entries seen).map (fun e => render e.1 e.2) := by
  induction entries with
  | nil => intro seen; simp [scanRows, firstPerIdentity]
  | cons e rest ih =>
    intro seen
    obtain ⟨key, svc⟩ := e
    cases hp : hasPre key pfx with
    | false =>
      simp only [scanRows, firstPerIdentity, hp, Bool.false_eq_true, if_false]
      exact ih seen
    | true =>
      simp only [scanRows, firstPerIdentity, hp, if_true]
      by_cases hd : dedupIdentity svc key ∈ seen
      · rw [if_pos hd, if_pos hd]
        exact ih seen
      · rw [if_neg hd, if_neg hd]
        simp [ih]

theorem firstPerIdentity_identities_nodup (pfx : String) (entries : Store) :
    ∀ seen : List Service,
      ((firstPerIdentity pfx entries seen).map (fun e => dedupIdentity e.2 e.1)).Nodup ∧
      ∀ d ∈ (firstPerIdentity pfx entries seen).map (fun e => dedupIdentity e.2 e.1),
        d ∉ seen := by
  induction entries with
  | nil => intro seen; simp [firstPerIdentity]
  | cons e rest ih =>
    intro seen
    obtain ⟨key, svc⟩ := e
    cases hp : hasPre key pfx with
    | false =>
      simp only [firstPerIdentity, hp, Bool.false_eq_true, if_false]
      exact ih seen
    | true =>
      simp only [firstPerIdentity, hp, if_true]
      by_cases hd : dedupIdentity svc key ∈ seen
      · rw [if_pos hd]
        exact ih seen
      · rw [if_neg hd]
        obtain ⟨ihn, ihs⟩ := ih (dedupIdentity svc key :: seen)
        simp only [List.map_cons, List.nodup_cons]
        refine ⟨⟨?_, ihn⟩, ?_⟩
        · intro hmem
          exact ihs _ hmem (List.mem_cons_self _ _)
        · intro d hd'
          rcases List.mem_cons.mp hd' with h | h
          · subst h
            exact hd
          · intro hseen
            exact ihs d h (List.mem_cons_of_mem _ hseen)

/-- The Go heap, restricted to `Service` cells: a `*Service` is an index
into it. -/
abbrev Heap := List Service

/-- Assignment through a `*Service` pointer. -/
def heapWrite (h : Heap) (p : Nat) (v : Service) : Heap := h.set p v

/-- Dereference of a `*Service` pointer (`none` on an invalid
pointer). -/
def heapRead (h : Heap) (p : Nat) : Option Service := h[p]?

/-- Pointer-level version of the `GetServices` scan loop of the memory
backend: `svcCopy := svc` followed by `services = append(services,
&svcCopy)` allocates each rendered record as a fresh heap cell; the call
returns the list of pointers. -/
def scanRowsPtr (pfx : String) : Store → List Service → Heap → Heap × List Nat
  | [], _, h => (h, [])
  | (key, svc) :: rest, seen, h =>
    if hasPre key pfx then
      let d := dedupIdentity svc key
      if d ∈ seen then scanRowsPtr pfx rest seen h
      else
        let res := scanRowsPtr pfx rest (d :: seen) (h ++ [render key svc])
        (res.1, h.length :: res.2)
    else scanRowsPtr pfx rest seen h

/-- `MemoryBackend.SaveService` at the pointer level: dereference the
`*Service` argument once and store a copy with `Key` cleared (`none`
models a nil-pointer panic and never occurs for a valid pointer). -/
def MemoryBackend.SaveServicePtr (st : Store) (h : Heap) (p : Nat) : Option Store :=
  (heapRead h p).map (fun service => mapInsert service.Key { service with Key := "" } st)

theorem scanRowsPtr_eq (pfx : String) (entries : Store) :
    ∀ (seen : List Service) (h : Heap),
      scanRowsPtr pfx entries seen h =
        (h ++ scanRows pfx entries seen,
         List.range' h.length (scanRows pfx entries seen).length) := by
  induction entries with
  | nil => intro seen h; simp [scanRowsPtr, scanRows]
  | cons e rest ih =>
    intro seen h
    obtain ⟨key, svc⟩ := e
    cases hp : hasPre key pfx with
    | false =>
      simp only [scanRowsPtr, scanRows, hp, Bool.false_eq_true, if_false]
      exact ih seen h
    | true =>
      simp only [scanRowsPtr, scanRows, hp, if_true]
      by_cases hd : dedupIdentity svc key ∈ seen
      · rw [if_pos hd, if_pos hd]
        exact ih seen h
      · rw [if_neg hd, if_neg hd]
        rw [ih (dedupIdentity svc key :: seen) (h ++ [render key svc])]
        simp [List.range'_succ, Nat.add_comm]

/-- A sample record with Priority 0 (exercises the default). -/
def svcA : Service :=
  { Host := "1.2.3.4", Port := 80, Priority := 0, Weight := 0, Text := "",
    Mail := false, TTL := 30, TargetStrip := 0, Group := "",
    Key := "/skydns/com/example/www" }

/-- A sample record with a nonzero Priority. -/
def svcB : Service :=
  { Host := "5.6.7.8", Port := 443, Priority := 5, Weight := 2, Text := "txt",
    Mail := false, TTL := 60, TargetStrip := 0, Group := "",
    Key := "/skydns/com/example/api" }

/-- A third sample record. -/
def svcC : Service :=
  { Host := "9.9.9.9", Port := 53, Priority := 1, Weight := 0, Text := "",
    Mail := false, TTL := 10, TargetStrip := 0, Group := "",
    Key := "/skydns/com/other/www" }

theorem deletePred_iff (k' K : String) :
    (!(k' == K || hasPre k' (K ++ "/"))) = true ↔
      ¬(k' = K ∨ ∃ t : String, k' = K ++ "/" ++ t) := by
  rw [Bool.not_eq_true', Bool.or_eq_false_iff, beq_eq_false_iff_ne]
  constructor
  · rintro ⟨hne, hnp⟩ (rfl | ⟨t, rfl⟩)
    · exact hne rfl
    · have ht : hasPre (K ++ "/" ++ t) (K ++ "/") = true :=
        (hasPre_iff_exists _ _).mpr ⟨t, rfl⟩
      rw [hnp] at ht
      exact Bool.false_ne_true ht
  · intro hn
    refine ⟨fun h => hn (Or.inl h), ?_⟩
    cases hpre : hasPre k' (K ++ "/") with
    | false => rfl
    | true =>
      obtain ⟨t, rfl⟩ := (hasPre_iff_exists _ _).mp hpre
      exact absurd (Or.inr ⟨t, rfl⟩) hn

/-- C1: for every store state and key `K`, `DeleteService K` removes
exactly the record stored at key `K` (if present) and every record
whose key equals `K ++ "/" ++ suffix`; every record whose key merely
has `K` as a string prefix without the `/` separator remains stored
unchanged — in both the in-memory and SQLite backends. -/
theorem deleteService_removes_exactly_subtree (st : Store) (K k' : String) (v : Service) :
    ((k', v) ∈ (MemoryBackend.DeleteService false st K).1 ↔
      (k', v) ∈ st ∧ ¬(k' = K ∨ ∃ t : String, k' = K ++ "/" ++ t)) ∧
    ((k', v) ∈ (SQLiteBackend.DeleteService false st K).1 ↔
      (k', v) ∈ st ∧ ¬(k' = K ∨ ∃ t : String, k' = K ++ "/" ++ t)) := by
  have h : ∀ l : Store,
      (k', v) ∈ l.filter (fun e => !(e.1 == K || hasPre e.1 (K ++ "/"))) ↔
        (k', v) ∈ l ∧ ¬(k' = K ∨ ∃ t : String, k' = K ++ "/" ++ t) := by
    intro l
    rw [List.mem_filter]
    exact and_congr_right fun _ => deletePred_iff k' K
  exact ⟨h st, h st⟩

/-- C2: for every store whose keys are unique (the Go-map / primary-key
invariant) and every saved record with key `K`, `GetServices P` returns
a list containing its read-back (`render K`) exactly when `P` is a
literal string prefix of `K` — plain string-prefix matching, not
segment-aware — and excludes it otherwise, in both backends (whose
result is the same `scanRows` scan). -/
theorem getServices_contains_iff_stringPre (st : Store) (P K : String) (svc : Service)
    (hnd : keysNodup st) (hmem : (K, svc) ∈ st) :
    MemoryBackend.GetServices false st P = .ok (scanRows P st []) ∧
    SQLiteBackend.GetServices false st P = .ok (scanRows P st []) ∧
    (render K svc ∈ scanRows P st [] ↔ hasPre K P = true) := by
  refine ⟨rfl, rfl, ?_, fun hp => mem_scanRows_of_mem P hnd hmem hp⟩
  intro hin
  cases hp : hasPre K P with
  | true => rfl
  | false => exact absurd hin (not_mem_scanRows P st [] svc hp)

/-- C2 witness: a record at `/skydns/com/example/www` is returned for
the prefix `/skydns/com/example` and not for `/skydns/com/exa/`. -/
theorem getServices_contains_iff_stringPre_witness :
    render "/skydns/com/example/www" svcA ∈
      scanRows "/skydns/com/example" [("/skydns/com/example/www", svcA)] [] ∧
    render "/skydns/com/example/www" svcA ∉
      scanRows "/skydns/com/exa/" [("/skydns/com/example/www", svcA)] [] := by
  constructor
  · exact (getServices_contains_iff_stringPre [("/skydns/com/example/www", svcA)]
      "/skydns/com/example" "/skydns/com/example/www" svcA (by decide)
      (by simp)).2.2.mpr (by decide)
  · intro hin
    have h := (getServices_contains_iff_stringPre [("/skydns/com/example/www", svcA)]
      "/skydns/com/exa/" "/skydns/com/example/www" svcA (by decide)
      (by simp)).2.2.mp hin
    exact absurd h (by decide)

/-- C3: a record saved with Priority 0 is reported with Priority 10 by
every subsequent `GetServices` call that returns it; a record saved
with a nonzero Priority is returned with that Priority unchanged — in
both backends (memory stores the record with `Key` cleared, SQLite the
full record; both read back through `render`). -/
theorem getServices_priority_default (st : Store) (P : String) (svc : Service)
    (hnd : keysNodup st) (hp : hasPre svc.Key P = true) :
    (∃ l, MemoryBackend.GetServices false (MemoryBackend.SaveService false st svc).1 P = .ok l ∧
      render svc.Key { svc with Key := "" } ∈ l) ∧
    (∃ l, SQLiteBackend.GetServices false (SQLiteBackend.SaveService false st svc).1 P = .ok l ∧
      render svc.Key svc ∈ l) ∧
    (svc.Priority = 0 →
      (render svc.Key { svc with Key := "" }).Priority = 10 ∧
      (render svc.Key svc).Priority = 10) ∧
    (svc.Priority ≠ 0 →
      (render svc.Key { svc with Key := "" }).Priority = svc.Priority ∧
      (render svc.Key svc).Priority = svc.Priority) := by
  refine ⟨⟨_, rfl, ?_⟩, ⟨_, rfl, ?_⟩, ?_, ?_⟩
  · exact mem_scanRows_of_mem P (keysNodup_mapInsert _ _ hnd)
      (mapInsert_mem_self svc.Key { svc with Key := "" } st) hp
  · exact mem_scanRows_of_mem P (keysNodup_mapInsert _ _ hnd)
      (mapInsert_mem_self svc.Key svc st) hp
  · intro h0
    rw [render_Priority, render_Priority]
    simp [h0, priority]
  · intro hn0
    rw [render_Priority, render_Priority]
    simp [hn0]

/-- C3 witness: `svcA` (Priority 0) reads back with Priority 10 and
`svcB` (Priority 5) reads back with Priority 5. -/
theorem getServices_priority_default_witness :
    (render svcA.Key { svcA with Key := "" }).Priority = 10 ∧
    (render svcB.Key { svcB with Key := "" }).Priority = 5 := by
  constructor
  · exact ((getServices_priority_default [] "/skydns" svcA (by decide)
      (by decide)).2.2.1 (by decide)).1
  · have h := ((getServices_priority_default [] "/skydns" svcB (by decide)
      (by decide)).2.2.2 (by decide)).1
    rw [h]
    rfl

/-- C4: an operation called with an already-canceled context returns
the cancellation error, and for the mutating operations the store is
returned exactly unchanged — for all six operations of the two
backends. -/
theorem canceled_context_returns_error (st : Store) (pfx key : String) (svc : Service) :
    MemoryBackend.GetServices true st pfx = .error .canceled ∧
    MemoryBackend.SaveService true st svc = (st, some .canceled) ∧
    MemoryBackend.DeleteService true st key = (st, some .canceled) ∧
    SQLiteBackend.GetServices true st pfx = .error .canceled ∧
    SQLiteBackend.SaveService true st svc = (st, some .canceled) ∧
    SQLiteBackend.DeleteService true st key = (st, some .canceled) :=
  ⟨rfl, rfl, rfl, rfl, rfl, rfl⟩

/-- C5: saving over an existing key replaces that record entirely — the
stored value under the key becomes exactly the saved record (with `Key`
cleared in the memory backend, in full in the SQLite backend) — without
changing the record count; saving twice with identical content yields
the same store state and hence the same `GetServices` results as saving
once. -/
theorem saveService_overwrite_idempotent (st : Store) (svc : Service) (P : String) :
    (svc.Key ∈ st.map Prod.fst →
      (MemoryBackend.SaveService false st svc).1.length = st.length ∧
      (SQLiteBackend.SaveService false st svc).1.length = st.length) ∧
    storeLookup (MemoryBackend.SaveService false st svc).1 svc.Key =
      some { svc with Key := "" } ∧
    storeLookup (SQLiteBackend.SaveService false st svc).1 svc.Key = some svc ∧
    MemoryBackend.SaveService false (MemoryBackend.SaveService false st svc).1 svc =
      MemoryBackend.SaveService false st svc ∧
    SQLiteBackend.SaveService false (SQLiteBackend.SaveService false st svc).1 svc =
      SQLiteBackend.SaveService false st svc ∧
    MemoryBackend.GetServices false
        (MemoryBackend.SaveService false (MemoryBackend.SaveService false st svc).1 svc).1 P =
      MemoryBackend.GetServices false (MemoryBackend.SaveService false st svc).1 P ∧
    SQLiteBackend.GetServices false
        (SQLiteBackend.SaveService false (SQLiteBackend.SaveService false st svc).1 svc).1 P =
      SQLiteBackend.GetServices false (SQLiteBackend.SaveService false st svc).1 P := by
  have hm : (MemoryBackend.SaveService false st svc).1 =
      mapInsert svc.Key { svc with Key := "" } st := rfl
  have hs : (SQLiteBackend.SaveService false st svc).1 = mapInsert svc.Key svc st := rfl
  refine ⟨fun hmem => ⟨?_, ?_⟩, ?_, ?_, ?_, ?_, ?_, ?_⟩
  · rw [hm]; exact length_mapInsert_of_mem _ hmem
  · rw [hs]; exact length_mapInsert_of_mem _ hmem
  · rw [hm]; exact storeLookup_mapInsert _ _ _
  · rw [hs]; exact storeLookup_mapInsert _ _ _
  · simp only [MemoryBackend.SaveService, Bool.false_eq_true, if_false]
    rw [mapInsert_idem]
  · simp only [SQLiteBackend.SaveService, Bool.false_eq_true, if_false]
    rw [mapInsert_idem]
  · simp only [MemoryBackend.SaveService, Bool.false_eq_true, if_false]
    rw [mapInsert_idem]
  · simp only [SQLiteBackend.SaveService, Bool.false_eq_true, if_false]
    rw [mapInsert_idem]

/-- C5 witness: overwriting the single record of a one-record store
keeps the count at 1. -/
theorem saveService_overwrite_idempotent_witness :
    (MemoryBackend.SaveService false [(svcA.Key, svcB)] svcA).1.length = 1 ∧
    (SQLiteBackend.SaveService false [(svcA.Key, svcB)] svcA).1.length = 1 :=
  (saveService_overwrite_idempotent [(svcA.Key, svcB)] svcA "/skydns").1 (by simp)

/-- C6: during `GetServices` every candidate entry is assigned the
composite identity (Host, Port, Priority, Weight, Text, Key); among
entries with equal identity only the first encountered is returned (the
scan is the rendered image of the first-per-identity selection, whose
identities are pairwise distinct); in particular two saved records with
identical Host, Port, Priority, Weight and Text but different keys are
both returned, as distinct results. -/
theorem getServices_dedup_composite_identity (pfx : String) (entries : Store)
    (seen : List Service) (st : Store) (K1 K2 : String) (v1 v2 : Service) :
    scanRows pfx entries seen =
      (firstPerIdentity pfx entries seen).map (fun e => render e.1 e.2) ∧
    ((firstPerIdentity pfx entries []).map (fun e => dedupIdentity e.2 e.1)).Nodup ∧
    (keysNodup st → (K1, v1) ∈ st → (K2, v2) ∈ st → K1 ≠ K2 →
      v1.Host = v2.Host → v1.Port = v2.Port → v1.Priority = v2.Priority →
      v1.Weight = v2.Weight → v1.Text = v2.Text →
      hasPre K1 pfx = true → hasPre K2 pfx = true →
      render K1 v1 ∈ scanRows pfx st [] ∧ render K2 v2 ∈ scanRows pfx st [] ∧
      render K1 v1 ≠ render K2 v2) := by
  refine ⟨scanRows_eq_map_firstPerIdentity pfx entries seen,
    (firstPerIdentity_identities_nodup pfx entries []).1, ?_⟩
  intro hnd h1 h2 hK _ _ _ _ _ hp1 hp2
  refine ⟨mem_scanRows_of_mem pfx hnd h1 hp1, mem_scanRows_of_mem pfx hnd h2 hp2, ?_⟩
  intro he
  apply hK
  have hkeys := congrArg Service.Key he
  rwa [render_Key, render_Key] at hkeys

/-- C6 witness: the same content saved under two different keys is
returned twice, as distinct records. -/
theorem getServices_dedup_composite_identity_witness :
    render "/skydns/com/example/www" svcA ∈
      scanRows "/skydns"
        [("/skydns/com/example/www", svcA), ("/skydns/com/example/www2", svcA)] [] ∧
    render "/skydns/com/example/www2" svcA ∈
      scanRows "/skydns"
        [("/skydns/com/example/www", svcA), ("/skydns/com/example/www2", svcA)] [] ∧
    render "/skydns/com/example/www" svcA ≠ render "/skydns/com/example/www2" svcA :=
  (getServices_dedup_composite_identity "/skydns" [] []
      [("/skydns/com/example/www", svcA), ("/skydns/com/example/www2", svcA)]
      "/skydns/com/example/www" "/skydns/com/example/www2" svcA svcA).2.2
    (by decide) (by simp) (by simp) (by decide)
    rfl rfl rfl rfl rfl (by decide) (by decide)

/-- C7: `NewBackend` with a type other than the three canonical ones
returns no backend instance together with the `ErrUnknownBackend`
sentinel; for the recognized types it returns an instance and no
error. -/
theorem newBackend_unknown_sentinel (btype sqlitePath : String) :
    ((btype ≠ "etcd" ∧ btype ≠ "sqlite" ∧ btype ≠ "memory") →
      NewBackend btype sqlitePath = (none, some .unknownBackend)) ∧
    ((btype = "etcd" ∨ btype = "sqlite" ∨ btype = "memory") →
      (NewBackend btype sqlitePath).1.isSome = true ∧
      (NewBackend btype sqlitePath).2 = none) := by
  constructor
  · rintro ⟨h1, h2, h3⟩
    simp only [NewBackend]
    rw [if_neg (by simp [h1]), if_neg (by simp [h2]), if_neg (by simp [h3])]
  · rintro (rfl | rfl | rfl)
    · exact ⟨rfl, rfl⟩
    · constructor <;> simp [NewBackend]
    · constructor <;> simp [NewBackend]

/-- C7 witness: type `"consul"` yields the unknown-backend sentinel and
no instance; type `"memory"` yields an instance and no error. -/
theorem newBackend_unknown_sentinel_witness :
    NewBackend "consul" "" = (none, some .unknownBackend) ∧
    (NewBackend "memory" "").1.isSome = true :=
  ⟨(newBackend_unknown_sentinel "consul" "").1 (by decide),
   ((newBackend_unknown_sentinel "memory" "").2 (by simp)).1⟩

/-- C8 counterexample: `COREDNS_BACKEND = "Consul"` is non-empty and is
not a recognized alias even case-insensitively, yet `GetBackendType`
returns `"consul"` — the lower-cased value, not the claimed verbatim
`"Consul"`. -/
theorem getBackendType_not_verbatim :
    ("Consul" : String) ≠ "" ∧
    (∀ a ∈ (["etcd", "sqlite", "sqlite3", "memory", "mem", "inmemory",
        "in-memory"] : List String), toLowerGo "Consul" ≠ a) ∧
    GetBackendType "Consul" = "consul" ∧
    GetBackendType "Consul" ≠ "Consul" :=
  ⟨by decide, by decide, by decide, by decide⟩

/-- C8 amended: for every non-empty value of the backend-type variable
that is not one of the recognized aliases, `GetBackendType` returns the
lower-case folding of that value as the backend type (so a value that is
already lower-case passes through verbatim). -/
theorem getBackendType_passthrough_lowercased (env : String) (hne : env ≠ "")
    (halias : ∀ a ∈ (["sqlite", "sqlite3", "memory", "mem", "inmemory",
        "in-memory", "etcd"] : List String), toLowerGo env ≠ a) :
    GetBackendType env = toLowerGo env := by
  have hlow : toLowerGo env ≠ "" := by
    intro h
    apply hne
    apply String.ext
    have hd : env.data.map Char.toLower = [] := congrArg String.data h
    exact List.map_eq_nil_iff.mp hd
  have h1 : (toLowerGo env == "sqlite" || toLowerGo env == "sqlite3") = false := by
    simp [halias "sqlite" (by simp), halias "sqlite3" (by simp)]
  have h2 : (toLowerGo env == "memory" || toLowerGo env == "mem" ||
      toLowerGo env == "inmemory" || toLowerGo env == "in-memory") = false := by
    simp [halias "memory" (by simp), halias "mem" (by simp),
      halias "inmemory" (by simp), halias "in-memory" (by simp)]
  have h3 : (toLowerGo env == "etcd" || toLowerGo env == "") = false := by
    simp [halias "etcd" (by simp), hlow]
  simp only [GetBackendType, h1, h2, h3, Bool.false_eq_true, if_false]

/-- C8 amended witness: the already-lower-case unrecognized value
`"consul"` passes through unchanged. -/
theorem getBackendType_passthrough_lowercased_witness :
    GetBackendType "consul" = toLowerGo "consul" :=
  getBackendType_passthrough_lowercased "consul" (by decide) (by decide)

/-- C9: with pairwise-distinct keys (the Go-map invariant for the
memory backend; the `key` primary key for SQLite) the dedup pass of
`GetServices` never drops a record: `GetServices` is extensionally
equal to the same scan with the dedup pass removed, in both
backends. -/
theorem getServices_eq_noDedup (st : Store) (pfx : String) (hnd : keysNodup st) :
    MemoryBackend.GetServices false st pfx = .ok (getServicesNoDedup pfx st) ∧
    SQLiteBackend.GetServices false st pfx = .ok (getServicesNoDedup pfx st) := by
  have h := scanRows_eq_of_nodup pfx st [] (by simp) hnd
  exact ⟨congrArg Except.ok h, congrArg Except.ok h⟩

/-- C9 witness: on a concrete two-record store the two results
agree. -/
theorem getServices_eq_noDedup_witness :
    MemoryBackend.GetServices false
        [(svcA.Key, { svcA with Key := "" }), (svcB.Key, { svcB with Key := "" })]
        "/skydns" =
      .ok (getServicesNoDedup "/skydns"
        [(svcA.Key, { svcA with Key := "" }), (svcB.Key, { svcB with Key := "" })]) :=
  (getServices_eq_noDedup
    [(svcA.Key, { svcA with Key := "" }), (svcB.Key, { svcB with Key := "" })]
    "/skydns" (by decide)).1

/-- C10: the memory backend's `GetServices` returns pointers to fresh
pairwise-distinct heap cells holding the rendered copies — never into
the pre-existing heap; writing through any returned pointer leaves
every pre-existing cell unchanged, and a subsequent call on the
mutated heap appends the very same records again (the store, which
holds values and not pointers, is untouched by heap writes); and
`SaveService` stores the value its argument points to at call time,
with the `Key` field cleared. -/
theorem getServicesPtr_fresh_copies (st : Store) (pfx : String) (h : Heap) :
    scanRowsPtr pfx st [] h =
      (h ++ scanRows pfx st [], List.range' h.length (scanRows pfx st []).length) ∧
    (scanRowsPtr pfx st [] h).2.Nodup ∧
    (∀ p ∈ (scanRowsPtr pfx st [] h).2, h.length ≤ p) ∧
    (∀ i, i < (scanRows pfx st []).length →
      heapRead (scanRowsPtr pfx st [] h).1 (h.length + i) = (scanRows pfx st [])[i]?) ∧
    (∀ p v, p ∈ (scanRowsPtr pfx st [] h).2 → ∀ i, i < h.length →
      heapRead (heapWrite (scanRowsPtr pfx st [] h).1 p v) i = h[i]?) ∧
    (∀ p v, scanRowsPtr pfx st [] (heapWrite (scanRowsPtr pfx st [] h).1 p v) =
      (heapWrite (scanRowsPtr pfx st [] h).1 p v ++ scanRows pfx st [],
       List.range' (heapWrite (scanRowsPtr pfx st [] h).1 p v).length
         (scanRows pfx st []).length)) ∧
    (∀ p svc, heapRead h p = some svc →
      MemoryBackend.SaveServicePtr st h p =
        some (mapInsert svc.Key { svc with Key := "" } st)) := by
  have he := scanRowsPtr_eq pfx st [] h
  refine ⟨he, ?_, ?_, ?_, ?_, ?_, ?_⟩
  · rw [he]
    exact List.nodup_range' _ _
  · rw [he]
    intro p hp
    exact (List.mem_range'_1.mp hp).1
  · intro i hi
    rw [he]
    simp only [heapRead]
    rw [List.getElem?_append_right (Nat.le_add_right _ _)]
    simp
  · intro p v hp i hi
    rw [he] at hp ⊢
    simp only [heapRead, heapWrite]
    have hple : h.length ≤ p := (List.mem_range'_1.mp hp).1
    rw [List.getElem?_set_ne (by omega), List.getElem?_append, if_pos hi]
  · intro p v
    exact scanRowsPtr_eq pfx st [] _
  · intro p svc hp
    simp [MemoryBackend.SaveServicePtr, hp]

/-- C10 witness: after a scan over a one-record store starting from a
one-cell heap, writing through the returned pointer (cell 1) leaves the
pre-existing cell 0 unchanged. -/
theorem getServicesPtr_fresh_copies_witness :
    heapRead
      (heapWrite (scanRowsPtr "/skydns" [("/skydns/com/example/www", svcA)] [] [svcB]).1
        1 svcC) 0 = some svcB := by
  have h := getServicesPtr_fresh_copies [("/skydns/com/example/www", svcA)] "/skydns" [svcB]
  have h5 := h.2.2.2.2.1 1 svcC (by decide) 0 (by decide)
  simpa using h5

end CoreDNS
